import Mathlib

/-!
Shallow embedding of `core/types/zktrie/hash.go`: the 32-byte `Hash` codec of
the zk-trie, with its conversions to and from big integers, hexadecimal and
decimal strings.

Bytes are modelled as natural numbers below 256, and a `Hash` as the list of
its 32 storage bytes (least-significant byte first, mirroring
`type Hash [32]byte`).  Go `big.Int` values are modelled as `Int` where a sign
can occur (construction, string parsing) and as `Nat` for the always
non-negative big-endian decode.
-/

/-- `ElemBytesLen` is the length of the Hash byte array. -/
def ElemBytesLen : Nat := 32

/-- `numCharPrint`: number of characters kept by the abbreviated display form. -/
def numCharPrint : Nat := 8

/-- A `Hash` is the list of its 32 storage bytes, least-significant byte
first (Go: `type Hash [32]byte`). -/
abbrev Hash := List Nat

/-- `HashZero`: the all-zero sentinel hash. -/
def HashZero : Hash := List.replicate 32 0

/-- `ReverseByteOrder` swaps the order of the bytes in the slice. -/
def ReverseByteOrder (b : List Nat) : List Nat := b.reverse

/-- Go `copy` into a zero-initialised buffer of length `k`: the first
`min k src.length` bytes come from `src`, the remaining bytes stay zero. -/
def copyPad (k : Nat) (src : List Nat) : List Nat :=
  src.take k ++ List.replicate (k - src.length) 0

/-- `big.Int.SetBytes`: interpret a byte slice as an unsigned big-endian
integer. -/
def setBytes (b : List Nat) : Nat := b.foldl (fun acc x => acc * 256 + x) 0

/-- Minimal little-endian base-256 digits of `n`, with explicit fuel so that
the recursion is structural and the kernel can evaluate it; `n + 1` units of
fuel always suffice because the digit count never exceeds `n + 1`. -/
def natToLEAux : Nat → Nat → List Nat
  | 0, _ => []
  | fuel + 1, n => if n = 0 then [] else n % 256 :: natToLEAux fuel (n / 256)

/-- Minimal little-endian base-256 digits of `n`. -/
def natToLE (n : Nat) : List Nat := natToLEAux (n + 1) n

/-- `big.Int.Bytes`: minimal big-endian bytes of the absolute value. -/
def bigIntBytes (n : Int) : List Nat := (natToLE n.natAbs).reverse

/-- The field modulus `Q` of the scalar field used by the zk-trie hashes
(`go-iden3-crypto` `constants.Q`). -/
def Q : Nat := 21888242871839275222246405745257275088548364400416034343698204186575808495617

/-- `utils.CheckBigIntInField`: the membership test `n < Q`. -/
def CheckBigIntInField (n : Nat) : Bool := decide (n < Q)

/-- `Hash.BigInt`: decode the hash as an integer, reversing storage order into
big-endian order first.  (The `nil` comparison in the Go source is dead code:
`SetBytes` never returns `nil`.) -/
def Hash.BigInt (h : Hash) : Nat := setBytes (ReverseByteOrder h)

/-- `Hash.Bytes`: the big-endian 32-byte representation (the Go source copies
the hash into a fresh 32-byte array, then reverses it). -/
def Hash.Bytes (h : Hash) : List Nat := ReverseByteOrder (copyPad 32 h)

/-- The error values returned by the codec. -/
inductive HashError
  | wrongLength (found : Nat)
  | fieldOverflow
deriving DecidableEq

/-- `NewBigIntFromHashBytes`: length-checked, field-checked big-endian
decode. -/
def NewBigIntFromHashBytes (b : List Nat) : Except HashError Nat :=
  if b.length ≠ ElemBytesLen then .error (.wrongLength b.length)
  else
    let bi := setBytes (b.take ElemBytesLen)
    if ¬ CheckBigIntInField bi then .error .fieldOverflow
    else .ok bi

/-- `NewHashFromBigInt`: store the reversed minimal bytes of `b` into a
zeroed 32-byte buffer (no field-membership check). -/
def NewHashFromBigInt (b : Int) : Hash :=
  copyPad 32 (ReverseByteOrder (bigIntBytes b))

/-- `NewHashFromBytes`: length-checked construction from big-endian bytes,
swapping the endianness in the process (no field-membership check). -/
def NewHashFromBytes (b : List Nat) : Option Hash :=
  if b.length ≠ ElemBytesLen then none
  else some (copyPad 32 (ReverseByteOrder b))

/-- Lowercase hex digit character of `d < 16` (the `encoding/hex`
alphabet). -/
def hexDigitChar (d : Nat) : Char :=
  if d < 10 then Char.ofNat (48 + d) else Char.ofNat (87 + d)

/-- `hex.EncodeToString`: two lowercase hex characters per byte, high nibble
first. -/
def encodeHexChars : List Nat → List Char
  | [] => []
  | b :: bs => hexDigitChar (b / 16) :: hexDigitChar (b % 16) :: encodeHexChars bs

/-- `Hash.Hex`: lowercase hexadecimal of the raw storage bytes. -/
def Hash.Hex (h : Hash) : String := String.mk (encodeHexChars h)

/-- The ASCII decimal digit character of `d` (meaningful for `d < 10`). -/
def digitChar (d : Nat) : Char := Char.ofNat (48 + d)

/-- The value of an ASCII decimal digit character, if it is one. -/
def charDigit (c : Char) : Option Nat :=
  if 48 ≤ c.toNat ∧ c.toNat ≤ 57 then some (c.toNat - 48) else none

/-- Minimal little-endian decimal digits of `n`, as characters, fuelled as in
`natToLEAux`. -/
def natToDecAux : Nat → Nat → List Char
  | 0, _ => []
  | fuel + 1, n => if n = 0 then [] else digitChar (n % 10) :: natToDecAux fuel (n / 10)

/-- Minimal little-endian decimal digits of `n`. -/
def natToDec (n : Nat) : List Char := natToDecAux (n + 1) n

/-- `big.Int.String` for a non-negative value: most-significant digit first,
and the string is never empty (zero prints as a single zero digit). -/
def natDecString (n : Nat) : String :=
  if n = 0 then ("0") else String.mk (natToDec n).reverse

/-- Accumulating decimal parse: fails on the first non-digit character. -/
def parseDigitsAux : Nat → List Char → Option Nat
  | acc, [] => some acc
  | acc, c :: cs =>
    match charDigit c with
    | some d => parseDigitsAux (acc * 10 + d) cs
    | none => none

/-- Non-empty all-digit decimal parse (the digit part of `big.Int.SetString`
with base 10). -/
def parseDigits (cs : List Char) : Option Nat :=
  if cs = [] then none else parseDigitsAux 0 cs

/-- `big.Int.SetString(s, 10)`: an optional leading sign followed by a
non-empty string of decimal digits; anything else fails. -/
def setStringBase10 (s : String) : Option Int :=
  match s.data with
  | [] => none
  | c :: cs =>
    if c = '+' then (parseDigits cs).map (fun n => (n : Int))
    else if c = '-' then (parseDigits cs).map (fun n => -(n : Int))
    else (parseDigits (c :: cs)).map (fun n => (n : Int))

/-- `NewHashFromString`: parse a decimal string, then `NewHashFromBigInt`. -/
def NewHashFromString (s : String) : Option Hash :=
  (setStringBase10 s).map NewHashFromBigInt

/-- `Hash.MarshalText`: the full decimal string of the integer value (the
error component is always `nil` in the source, so the result is modelled as a
plain string). -/
def Hash.MarshalText (h : Hash) : String := natDecString (Hash.BigInt h)

/-- The outcome of `Hash.UnmarshalText`: either the hash written into the
receiver (the returned error is `nil` in that case), or the runtime fault
raised by `copy(h[:], ha[:])` when `NewHashFromString` returned a `nil`
pointer alongside its error. -/
inductive UnmarshalOutcome
  | ok (h : Hash)
  | nilDereference
deriving DecidableEq

/-- `Hash.UnmarshalText`: the Go source slices the returned pointer
(`ha[:]`) before inspecting the error, so a failed parse dereferences a
`nil` pointer instead of returning the error. -/
def Hash.UnmarshalText (s : String) : UnmarshalOutcome :=
  match NewHashFromString s with
  | some ha => .ok ha
  | none => .nilDereference

/-- `Hash.String`: decimal display form, abbreviated after `numCharPrint`
characters (Go keeps the string only when `len(s) < numCharPrint`). -/
def Hash.String (h : Hash) : String :=
  let s := natDecString (Hash.BigInt h)
  if s.length < numCharPrint then s
  else String.mk (s.data.take numCharPrint) ++ ("...")

/-- The value of one hexadecimal character (`0-9`, `a-f`, `A-F`). -/
def hexCharVal (c : Char) : Option Nat :=
  if 48 ≤ c.toNat ∧ c.toNat ≤ 57 then some (c.toNat - 48)
  else if 97 ≤ c.toNat ∧ c.toNat ≤ 102 then some (c.toNat - 87)
  else if 65 ≤ c.toNat ∧ c.toNat ≤ 70 then some (c.toNat - 55)
  else none

/-- Strict pairwise hexadecimal decoding: fails on an odd-length input and on
any non-hex character. -/
def decodeHexChars : List Char → Option (List Nat)
  | [] => some []
  | [_] => none
  | c1 :: c2 :: cs =>
    match hexCharVal c1, hexCharVal c2, decodeHexChars cs with
    | some d1, some d2, some bs => some ((d1 * 16 + d2) :: bs)
    | _, _, _ => none

/-- Drop one leading `0x` or `0X` marker, when present. -/
def stripHexMark (cs : List Char) : List Char :=
  match cs with
  | c0 :: c1 :: r => if c0 = '0' ∧ (c1 = 'x' ∨ c1 = 'X') then r else cs
  | _ => cs

/-- Modelled from the spec: `common.FromHex` is not part of the given
sources; per the spec, `FromHex` fails when the input "is not valid
hexadecimal", an odd-length or non-hex payload failing, after an optional
`0x` marker is dropped. -/
def fromHex (s : String) : Option (List Nat) :=
  decodeHexChars (stripHexMark s.data)

/-- `NewHashFromHex`: `NewHashFromBytes (ReverseByteOrder (fromHex s))`. -/
def NewHashFromHex (s : String) : Option Hash :=
  match fromHex s with
  | none => none
  | some b => NewHashFromBytes (ReverseByteOrder b)

/-! ### Helper lemmas: base-256 encoding and decoding -/

theorem natToLEAux_fuel : ∀ f1 f2 n, n < f1 → n < f2 → natToLEAux f1 n = natToLEAux f2 n := by
  intro f1
  induction f1 with
  | zero => intro f2 n h1 _; omega
  | succ f ih =>
    intro f2 n h1 h2
    cases f2 with
    | zero => omega
    | succ g =>
      simp only [natToLEAux]
      by_cases hn : n = 0
      · simp [hn]
      · simp only [if_neg hn]
        have hd : n / 256 < n := Nat.div_lt_self (Nat.pos_of_ne_zero hn) (by decide)
        rw [ih g (n / 256) (by omega) (by omega)]

theorem natToLE_eq (n : Nat) :
    natToLE n = if n = 0 then [] else n % 256 :: natToLE (n / 256) := by
  by_cases hn : n = 0
  · simp [hn, natToLE, natToLEAux]
  · have h1 : natToLE n = if n = 0 then [] else n % 256 :: natToLEAux n (n / 256) := rfl
    have hd : n / 256 < n := Nat.div_lt_self (Nat.pos_of_ne_zero hn) (by decide)
    rw [h1, if_neg hn, if_neg hn,
      natToLEAux_fuel n (n / 256 + 1) (n / 256) (by omega) (by omega)]
    rfl

theorem setBytes_snoc (l : List Nat) (y : Nat) :
    setBytes (l ++ [y]) = setBytes l * 256 + y := by
  simp [setBytes, List.foldl_append]

theorem setBytes_replicate_zero (k : Nat) : setBytes (List.replicate k 0) = 0 := by
  induction k with
  | zero => rfl
  | succ k ih => simpa [setBytes, List.replicate_succ] using ih

theorem setBytes_zeros_append (k : Nat) (l : List Nat) :
    setBytes (List.replicate k 0 ++ l) = setBytes l := by
  have h0 := setBytes_replicate_zero k
  simp only [setBytes, List.foldl_append]
  simp only [setBytes] at h0
  rw [h0]

theorem setBytes_reverse_natToLE (n : Nat) : setBytes (natToLE n).reverse = n := by
  induction n using Nat.strong_induction_on with
  | _ n ih =>
    rw [natToLE_eq]
    by_cases hn : n = 0
    · simp [hn, setBytes]
    · have hd : n / 256 < n := Nat.div_lt_self (Nat.pos_of_ne_zero hn) (by decide)
      rw [if_neg hn, List.reverse_cons, setBytes_snoc, ih (n / 256) hd]
      omega

theorem natToLE_length_le (k : Nat) : ∀ n, n < 256 ^ k → (natToLE n).length ≤ k := by
  induction k with
  | zero =>
    intro n h
    have hn : n = 0 := by omega
    simp [hn, natToLE_eq]
  | succ k ih =>
    intro n h
    rw [natToLE_eq]
    by_cases hn : n = 0
    · simp [hn]
    · rw [if_neg hn]
      simp only [List.length_cons]
      have hlt : n / 256 < 256 ^ k := by
        have hm : n < 256 ^ k * 256 := by rw [← pow_succ]; exact h
        exact Nat.div_lt_of_lt_mul (by omega)
      have := ih (n / 256) hlt
      omega

theorem copyPad_nil (k : Nat) : copyPad k [] = List.replicate k 0 := by
  simp [copyPad]

theorem copyPad_cons (k x : Nat) (r : List Nat) :
    copyPad (k + 1) (x :: r) = x :: copyPad k r := by
  simp [copyPad, List.replicate, Nat.succ_sub_succ]

theorem copyPad_self (k : Nat) (l : List Nat) (h : l.length = k) : copyPad k l = l := by
  subst h
  simp [copyPad]

theorem copyPad_natToLE_setBytes (l : List Nat) (hb : ∀ b ∈ l, b < 256) :
    copyPad l.length (natToLE (setBytes l.reverse)) = l := by
  induction l with
  | nil => rfl
  | cons x xs ih =>
    have hx : x < 256 := hb x (by simp)
    have hxs : ∀ b ∈ xs, b < 256 := fun b hbm => hb b (by simp [hbm])
    have hv : setBytes (x :: xs).reverse = setBytes xs.reverse * 256 + x := by
      rw [List.reverse_cons, setBytes_snoc]
    rw [hv]
    by_cases h0 : setBytes xs.reverse * 256 + x = 0
    · have hx0 : x = 0 := by omega
      have hm0 : setBytes xs.reverse = 0 := by omega
      have hxs' := ih hxs
      rw [hm0] at hxs'
      have hz : natToLE 0 = [] := rfl
      rw [hz, copyPad_nil] at hxs'
      rw [h0, hz, copyPad_nil]
      simp only [List.length_cons, List.replicate_succ]
      rw [hxs', hx0]
    · rw [natToLE_eq, if_neg h0]
      have hmod : (setBytes xs.reverse * 256 + x) % 256 = x := by omega
      have hdiv : (setBytes xs.reverse * 256 + x) / 256 = setBytes xs.reverse := by omega
      rw [hmod, hdiv]
      simp only [List.length_cons]
      rw [copyPad_cons, ih hxs]

theorem bigInt_newHashFromBigInt (n : Nat) (hn : n < 256 ^ 32) :
    Hash.BigInt (NewHashFromBigInt (n : Int)) = n := by
  unfold Hash.BigInt NewHashFromBigInt bigIntBytes ReverseByteOrder
  rw [Int.natAbs_ofNat, List.reverse_reverse]
  have hlen := natToLE_length_le 32 n hn
  rw [copyPad, List.take_of_length_le hlen, List.reverse_append, List.reverse_replicate,
    setBytes_zeros_append]
  exact setBytes_reverse_natToLE n

theorem newHashFromBigInt_bigInt (h : Hash) (hlen : h.length = 32)
    (hb : ∀ b ∈ h, b < 256) :
    NewHashFromBigInt (Hash.BigInt h : Nat) = h := by
  unfold NewHashFromBigInt bigIntBytes
  rw [Int.natAbs_ofNat]
  unfold ReverseByteOrder
  rw [List.reverse_reverse]
  unfold Hash.BigInt ReverseByteOrder
  rw [← hlen]
  exact copyPad_natToLE_setBytes h hb

/-! ### Claims C1, C2, C3 -/

/-- Claim C1: for every arbitrary-precision integer `n` with `0 ≤ n < Q`,
converting `n` to a hash with `NewHashFromBigInt` and decoding it back with
`Hash.BigInt` yields `n` again. -/
theorem c1_fromInteger_toInteger (n : Nat) (hn : n < Q) :
    Hash.BigInt (NewHashFromBigInt (n : Int)) = n :=
  bigInt_newHashFromBigInt n (Nat.lt_trans hn (by decide))

theorem c1_witness : 5 < Q ∧ Hash.BigInt (NewHashFromBigInt (5 : Int)) = 5 :=
  ⟨by decide, c1_fromInteger_toInteger 5 (by decide)⟩

/-- Claim C2: for every 32-byte buffer `b`, `Hash.Bytes` after
`NewHashFromBytes` reproduces `b`; and for every 32-byte hash `h`,
`NewHashFromBytes` after `Hash.Bytes` succeeds and reproduces `h`. -/
theorem c2_bytes_roundtrip :
    (∀ b : List Nat, b.length = 32 →
      Option.map Hash.Bytes (NewHashFromBytes b) = some b) ∧
    (∀ h : Hash, h.length = 32 → NewHashFromBytes (Hash.Bytes h) = some h) := by
  constructor
  · intro b hb
    have hrl : b.reverse.length = 32 := by simp [hb]
    unfold NewHashFromBytes ReverseByteOrder
    rw [if_neg (by simp [ElemBytesLen, hb]), copyPad_self 32 b.reverse hrl]
    simp only [Option.map_some']
    unfold Hash.Bytes ReverseByteOrder
    rw [copyPad_self 32 b.reverse hrl, List.reverse_reverse]
  · intro h hl
    have hbytes : Hash.Bytes h = h.reverse := by
      unfold Hash.Bytes ReverseByteOrder
      rw [copyPad_self 32 h hl]
    rw [hbytes]
    unfold NewHashFromBytes ReverseByteOrder
    rw [if_neg (by simp [ElemBytesLen, hl]), List.reverse_reverse, copyPad_self 32 h hl]

theorem c2_witness :
    Option.map Hash.Bytes (NewHashFromBytes (1 :: List.replicate 31 0)) =
      some (1 :: List.replicate 31 0) ∧
    NewHashFromBytes (Hash.Bytes (2 :: List.replicate 31 0)) =
      some (2 :: List.replicate 31 0) :=
  ⟨c2_bytes_roundtrip.1 (1 :: List.replicate 31 0) (by decide),
   c2_bytes_roundtrip.2 (2 :: List.replicate 31 0) (by decide)⟩

/-- Claim C3: `NewBigIntFromHashBytes` fails for every input whose length is
not 32; for a 32-byte input it fails with the field-overflow error exactly
when the big-endian decode is `≥ Q`, and succeeds with the decoded integer
when it is `< Q`. -/
theorem c3_validatedBytes (b : List Nat) :
    (b.length ≠ 32 →
      NewBigIntFromHashBytes b = Except.error (HashError.wrongLength b.length)) ∧
    (b.length = 32 → setBytes b < Q →
      NewBigIntFromHashBytes b = Except.ok (setBytes b)) ∧
    (b.length = 32 → Q ≤ setBytes b →
      NewBigIntFromHashBytes b = Except.error HashError.fieldOverflow) := by
  refine ⟨fun hne => ?_, fun hl hlt => ?_, fun hl hge => ?_⟩
  · unfold NewBigIntFromHashBytes
    rw [if_pos (by simpa [ElemBytesLen] using hne)]
  · have ht : b.take ElemBytesLen = b :=
      List.take_of_length_le (by simp [ElemBytesLen, hl])
    simp only [NewBigIntFromHashBytes, ht]
    rw [if_neg (by simp [ElemBytesLen, hl]),
      if_neg (by simp [CheckBigIntInField, hlt])]
  · have ht : b.take ElemBytesLen = b :=
      List.take_of_length_le (by simp [ElemBytesLen, hl])
    simp only [NewBigIntFromHashBytes, ht]
    rw [if_neg (by simp [ElemBytesLen, hl]),
      if_pos (by simp [CheckBigIntInField]; omega)]

theorem c3_witness :
    NewBigIntFromHashBytes [1, 2] = Except.error (HashError.wrongLength 2) ∧
    NewBigIntFromHashBytes
      [48, 100, 78, 114, 225, 49, 160, 41, 184, 80, 69, 182, 129, 129, 88, 93,
       40, 51, 232, 72, 121, 185, 112, 145, 67, 225, 245, 147, 240, 0, 0, 0] =
      Except.ok (Q - 1) ∧
    NewBigIntFromHashBytes (List.replicate 32 255) =
      Except.error HashError.fieldOverflow := by
  refine ⟨(c3_validatedBytes [1, 2]).1 (by decide), ?_,
    (c3_validatedBytes (List.replicate 32 255)).2.2 (by decide) (by decide)⟩
  have h := (c3_validatedBytes
      [48, 100, 78, 114, 225, 49, 160, 41, 184, 80, 69, 182, 129, 129, 88, 93,
       40, 51, 232, 72, 121, 185, 112, 145, 67, 225, 245, 147, 240, 0, 0, 0]).2.1
    (by decide) (by decide)
  rwa [(show setBytes
      [48, 100, 78, 114, 225, 49, 160, 41, 184, 80, 69, 182, 129, 129, 88, 93,
       40, 51, 232, 72, 121, 185, 112, 145, 67, 225, 245, 147, 240, 0, 0, 0] = Q - 1
    by decide)] at h

/-! ### Helper lemmas: hexadecimal encoding and decoding -/

theorem decodeHexChars_some (bs : List Nat) :
    ∀ cs, decodeHexChars cs = some bs →
      cs.length = 2 * bs.length ∧ ∀ c ∈ cs, hexCharVal c ≠ none := by
  induction bs with
  | nil =>
    intro cs h
    rcases cs with _ | ⟨c1, _ | ⟨c2, cs'⟩⟩
    · simp
    · simp [decodeHexChars] at h
    · cases h1 : hexCharVal c1 with
      | none => simp [decodeHexChars, h1] at h
      | some d1 =>
        cases h2 : hexCharVal c2 with
        | none => simp [decodeHexChars, h1, h2] at h
        | some d2 =>
          cases h3 : decodeHexChars cs' with
          | none => simp [decodeHexChars, h1, h2, h3] at h
          | some bs0 => simp [decodeHexChars, h1, h2, h3] at h
  | cons b bs' ih =>
    intro cs h
    rcases cs with _ | ⟨c1, _ | ⟨c2, cs'⟩⟩
    · simp [decodeHexChars] at h
    · simp [decodeHexChars] at h
    · cases h1 : hexCharVal c1 with
      | none => simp [decodeHexChars, h1] at h
      | some d1 =>
        cases h2 : hexCharVal c2 with
        | none => simp [decodeHexChars, h1, h2] at h
        | some d2 =>
          cases h3 : decodeHexChars cs' with
          | none => simp [decodeHexChars, h1, h2, h3] at h
          | some bs0 =>
            simp only [decodeHexChars, h1, h2, h3, Option.some.injEq,
              List.cons.injEq] at h
            obtain ⟨hl, hall⟩ := ih cs' (by rw [h3, h.2])
            refine ⟨by simp [hl]; omega, ?_⟩
            intro c hc
            rcases List.mem_cons.mp hc with rfl | hc2
            · simp [h1]
            · rcases List.mem_cons.mp hc2 with rfl | hc3
              · simp [h2]
              · exact hall c hc3

theorem stripHexMark_parity (cs : List Char) :
    (stripHexMark cs).length % 2 = cs.length % 2 := by
  rcases cs with _ | ⟨c0, _ | ⟨c1, r⟩⟩
  · rfl
  · rfl
  · simp only [stripHexMark]
    split
    · simp only [List.length_cons]
      omega
    · rfl

/-! ### Claim C4 -/

/-- Claim C4: `NewHashFromHex` fails whenever the string is not valid
hexadecimal or does not decode to exactly 32 bytes; in particular it fails on
every odd-length string and on every string whose payload (after the optional
`0x` marker) contains a non-hex character. -/
theorem c4_fromHex_failures (s : String) :
    (fromHex s = none → NewHashFromHex s = none) ∧
    (s.data.length % 2 = 1 → NewHashFromHex s = none) ∧
    ((∃ c ∈ stripHexMark s.data, hexCharVal c = none) → NewHashFromHex s = none) ∧
    (∀ bs, fromHex s = some bs → bs.length ≠ 32 → NewHashFromHex s = none) := by
  have hnone : fromHex s = none → NewHashFromHex s = none := by
    intro h
    unfold NewHashFromHex
    rw [h]
  refine ⟨hnone, fun hodd => ?_, fun ⟨c, hc, hval⟩ => ?_, fun bs hbs hlen => ?_⟩
  · apply hnone
    unfold fromHex
    cases h3 : decodeHexChars (stripHexMark s.data) with
    | none => rfl
    | some bs =>
      exfalso
      have hev := (decodeHexChars_some bs _ h3).1
      have hp := stripHexMark_parity s.data
      omega
  · apply hnone
    unfold fromHex
    cases h3 : decodeHexChars (stripHexMark s.data) with
    | none => rfl
    | some bs => exact absurd hval ((decodeHexChars_some bs _ h3).2 c hc)
  · unfold NewHashFromHex
    rw [hbs]
    show NewHashFromBytes (ReverseByteOrder bs) = none
    unfold NewHashFromBytes ReverseByteOrder
    rw [if_pos (by simp [ElemBytesLen, hlen])]

theorem c4_witness :
    NewHashFromHex ("123") = none ∧ NewHashFromHex ("zz") = none ∧
    NewHashFromHex ("1234") = none :=
  ⟨(c4_fromHex_failures ("123")).2.1 (by decide),
   (c4_fromHex_failures ("zz")).2.2.1 ⟨'z', by decide, by decide⟩,
   (c4_fromHex_failures ("1234")).2.2.2 [18, 52] (by decide) (by decide)⟩

/-! ### Claim C6 -/

theorem hexCharVal_hexDigitChar (d : Nat) (hd : d < 16) :
    hexCharVal (hexDigitChar d) = some d := by
  have h : ∀ e : Fin 16, hexCharVal (hexDigitChar e.val) = some e.val := by decide
  exact h ⟨d, hd⟩

theorem decodeHexChars_encode (l : List Nat) (hb : ∀ b ∈ l, b < 256) :
    decodeHexChars (encodeHexChars l) = some l := by
  induction l with
  | nil => rfl
  | cons b bs ih =>
    have hb' : b < 256 := hb b (by simp)
    have h1 := hexCharVal_hexDigitChar (b / 16) (by omega)
    have h2 := hexCharVal_hexDigitChar (b % 16) (by omega)
    have h3 := ih (fun x hx => hb x (by simp [hx]))
    simp only [encodeHexChars, decodeHexChars, h1, h2, h3, Option.some.injEq,
      List.cons.injEq]
    exact ⟨by omega, trivial⟩

theorem encodeHexChars_lower (l : List Nat) (hb : ∀ b ∈ l, b < 256) :
    ∀ c ∈ encodeHexChars l, ('0' ≤ c ∧ c ≤ '9') ∨ ('a' ≤ c ∧ c ≤ 'f') := by
  induction l with
  | nil => simp [encodeHexChars]
  | cons b bs ih =>
    have hb' : b < 256 := hb b (by simp)
    have hdig : ∀ e : Fin 16,
        ('0' ≤ hexDigitChar e.val ∧ hexDigitChar e.val ≤ '9') ∨
        ('a' ≤ hexDigitChar e.val ∧ hexDigitChar e.val ≤ 'f') := by decide
    intro c hc
    simp only [encodeHexChars, List.mem_cons] at hc
    rcases hc with rfl | rfl | hc
    · exact hdig ⟨b / 16, by omega⟩
    · exact hdig ⟨b % 16, by omega⟩
    · exact ih (fun x hx => hb x (by simp [hx])) c hc

theorem stripHexMark_encode (l : List Nat) (hb : ∀ b ∈ l, b < 256) :
    stripHexMark (encodeHexChars l) = encodeHexChars l := by
  rcases l with _ | ⟨b, bs⟩
  · rfl
  · have hb' : b < 256 := hb b (by simp)
    have hnx : ∀ e : Fin 16,
        ¬(hexDigitChar e.val = 'x' ∨ hexDigitChar e.val = 'X') := by decide
    simp only [encodeHexChars, stripHexMark]
    rw [if_neg (fun hcon => hnx ⟨b % 16, by omega⟩ hcon.2)]

/-- Claim C6: `Hash.Hex` is the lowercase hexadecimal encoding of the raw
storage bytes (decoding its characters gives back the storage bytes
themselves, not the reversed integer-order bytes), and `NewHashFromHex`
applied to it succeeds and reproduces the hash. -/
theorem c6_hex_roundtrip (h : Hash) (hlen : h.length = 32)
    (hb : ∀ b ∈ h, b < 256) :
    (∀ c ∈ (Hash.Hex h).data, ('0' ≤ c ∧ c ≤ '9') ∨ ('a' ≤ c ∧ c ≤ 'f')) ∧
    decodeHexChars (Hash.Hex h).data = some h ∧
    NewHashFromHex (Hash.Hex h) = some h := by
  have hdata : (Hash.Hex h).data = encodeHexChars h := rfl
  refine ⟨?_, ?_, ?_⟩
  · rw [hdata]
    exact encodeHexChars_lower h hb
  · rw [hdata]
    exact decodeHexChars_encode h hb
  · have hfh : fromHex (Hash.Hex h) = some h := by
      unfold fromHex
      rw [hdata, stripHexMark_encode h hb, decodeHexChars_encode h hb]
    unfold NewHashFromHex
    rw [hfh]
    show NewHashFromBytes (ReverseByteOrder h) = some h
    unfold NewHashFromBytes ReverseByteOrder
    rw [if_neg (by simp [ElemBytesLen, hlen]), List.reverse_reverse,
      copyPad_self 32 h hlen]

theorem c6_witness :
    decodeHexChars (Hash.Hex (3 :: List.replicate 31 0)).data =
      some (3 :: List.replicate 31 0) ∧
    NewHashFromHex (Hash.Hex (3 :: List.replicate 31 0)) =
      some (3 :: List.replicate 31 0) :=
  ⟨(c6_hex_roundtrip (3 :: List.replicate 31 0) (by decide) (by decide)).2.1,
   (c6_hex_roundtrip (3 :: List.replicate 31 0) (by decide) (by decide)).2.2⟩

/-! ### Helper lemmas: decimal printing and parsing -/

theorem natToDecAux_fuel : ∀ f1 f2 n, n < f1 → n < f2 → natToDecAux f1 n = natToDecAux f2 n := by
  intro f1
  induction f1 with
  | zero => intro f2 n h1 _; omega
  | succ f ih =>
    intro f2 n h1 h2
    cases f2 with
    | zero => omega
    | succ g =>
      simp only [natToDecAux]
      by_cases hn : n = 0
      · simp [hn]
      · simp only [if_neg hn]
        have hd : n / 10 < n := Nat.div_lt_self (Nat.pos_of_ne_zero hn) (by decide)
        rw [ih g (n / 10) (by omega) (by omega)]

theorem natToDec_eq (n : Nat) :
    natToDec n = if n = 0 then [] else digitChar (n % 10) :: natToDec (n / 10) := by
  by_cases hn : n = 0
  · simp [hn, natToDec, natToDecAux]
  · have h1 : natToDec n =
        if n = 0 then [] else digitChar (n % 10) :: natToDecAux n (n / 10) := rfl
    have hd : n / 10 < n := Nat.div_lt_self (Nat.pos_of_ne_zero hn) (by decide)
    rw [h1, if_neg hn, if_neg hn,
      natToDecAux_fuel n (n / 10 + 1) (n / 10) (by omega) (by omega)]
    rfl

theorem charDigit_digitChar (d : Nat) (hd : d < 10) :
    charDigit (digitChar d) = some d := by
  have h : ∀ e : Fin 10, charDigit (digitChar e.val) = some e.val := by decide
  exact h ⟨d, hd⟩

theorem digitChar_not_sign (d : Nat) (hd : d < 10) :
    digitChar d ≠ '+' ∧ digitChar d ≠ '-' := by
  have h : ∀ e : Fin 10, digitChar e.val ≠ '+' ∧ digitChar e.val ≠ '-' := by decide
  exact h ⟨d, hd⟩

theorem parseDigitsAux_append (l1 l2 : List Char) :
    ∀ acc, parseDigitsAux acc (l1 ++ l2) =
      (parseDigitsAux acc l1).bind (fun m => parseDigitsAux m l2) := by
  induction l1 with
  | nil => intro acc; simp [parseDigitsAux]
  | cons c cs ih =>
    intro acc
    cases hc : charDigit c with
    | none => simp [parseDigitsAux, hc]
    | some d => simp [parseDigitsAux, hc, ih]

theorem parseDigitsAux_natToDec (n : Nat) :
    ∀ acc, parseDigitsAux acc (natToDec n).reverse =
      some (acc * 10 ^ (natToDec n).length + n) := by
  induction n using Nat.strong_induction_on with
  | _ n ih =>
    intro acc
    rw [natToDec_eq]
    by_cases hn : n = 0
    · simp [hn, parseDigitsAux]
    · have hd : n / 10 < n := Nat.div_lt_self (Nat.pos_of_ne_zero hn) (by decide)
      rw [if_neg hn, List.reverse_cons, parseDigitsAux_append, ih (n / 10) hd acc]
      have hcd := charDigit_digitChar (n % 10) (by omega)
      simp only [Option.some_bind, parseDigitsAux, hcd, List.length_cons]
      congr 1
      rw [pow_succ]
      generalize (10:Nat) ^ (natToDec (n / 10)).length = K
      have hring : (acc * K + n / 10) * 10 + n % 10 =
          acc * (K * 10) + (n / 10 * 10 + n % 10) := by ring
      rw [hring]
      omega

theorem natToDec_mem (n : Nat) : ∀ c ∈ natToDec n, ∃ d, d < 10 ∧ c = digitChar d := by
  induction n using Nat.strong_induction_on with
  | _ n ih =>
    rw [natToDec_eq]
    by_cases hn : n = 0
    · simp [hn]
    · rw [if_neg hn]
      intro c hc
      rcases List.mem_cons.mp hc with rfl | hc2
      · exact ⟨n % 10, by omega, rfl⟩
      · exact ih (n / 10) (Nat.div_lt_self (Nat.pos_of_ne_zero hn) (by decide)) c hc2

theorem setStringBase10_cons (c : Char) (cs : List Char) :
    setStringBase10 (String.mk (c :: cs)) =
      if c = '+' then (parseDigits cs).map (fun n => (n : Int))
      else if c = '-' then (parseDigits cs).map (fun n => -(n : Int))
      else (parseDigits (c :: cs)).map (fun n => (n : Int)) := rfl

theorem parseDigits_cons (c : Char) (cs : List Char) :
    parseDigits (c :: cs) = parseDigitsAux 0 (c :: cs) := by
  unfold parseDigits
  rw [if_neg (by simp)]

theorem setStringBase10_natDecString (n : Nat) :
    setStringBase10 (natDecString n) = some (n : Int) := by
  by_cases hn : n = 0
  · subst hn
    rfl
  · have hne : natToDec n ≠ [] := by
      rw [natToDec_eq, if_neg hn]
      simp
    have hrne : (natToDec n).reverse ≠ [] := by
      simpa [List.reverse_eq_nil_iff] using hne
    obtain ⟨c, cs, hcons⟩ := List.exists_cons_of_ne_nil hrne
    have hcmem : c ∈ natToDec n := by
      have hm : c ∈ (natToDec n).reverse := by
        rw [hcons]
        simp
      simpa using hm
    obtain ⟨d, hd, rfl⟩ := natToDec_mem n c hcmem
    have hsign := digitChar_not_sign d hd
    unfold natDecString
    rw [if_neg hn]
    conv_lhs => rw [hcons]
    rw [setStringBase10_cons, if_neg hsign.1, if_neg hsign.2, parseDigits_cons,
      ← hcons, parseDigitsAux_natToDec n 0]
    simp

/-! ### Claims C5, C7, C8, C9, C10 -/

/-- Claim C5: the claim says `Hash.UnmarshalText` never causes a runtime
fault, but the Go source slices the `nil` pointer returned by a failed
`NewHashFromString` before checking the error, so every non-decimal input
dereferences `nil`: a runtime fault, not a recoverable error value. -/
theorem c5_unmarshal_fault :
    NewHashFromString ("zzz") = none ∧
    Hash.UnmarshalText ("zzz") = UnmarshalOutcome.nilDereference :=
  ⟨rfl, rfl⟩

/-- Claim C7: `Hash.MarshalText` emits the full decimal string of the
integer value (parsing it back recovers exactly that integer, so nothing was
abbreviated), and `NewHashFromString` applied to it succeeds and reproduces
the hash. -/
theorem c7_marshalText_roundtrip (h : Hash) (hlen : h.length = 32)
    (hb : ∀ b ∈ h, b < 256) :
    setStringBase10 (Hash.MarshalText h) = some ((Hash.BigInt h : Nat) : Int) ∧
    NewHashFromString (Hash.MarshalText h) = some h := by
  have hparse := setStringBase10_natDecString (Hash.BigInt h)
  refine ⟨hparse, ?_⟩
  unfold NewHashFromString
  rw [show Hash.MarshalText h = natDecString (Hash.BigInt h) from rfl, hparse]
  simp only [Option.map_some']
  rw [newHashFromBigInt_bigInt h hlen hb]

theorem c7_witness :
    setStringBase10 (Hash.MarshalText (4 :: List.replicate 31 0)) =
      some ((Hash.BigInt (4 :: List.replicate 31 0) : Nat) : Int) ∧
    NewHashFromString (Hash.MarshalText (4 :: List.replicate 31 0)) =
      some (4 :: List.replicate 31 0) :=
  c7_marshalText_roundtrip (4 :: List.replicate 31 0) (by decide) (by decide)

/-- Claim C8 counterexample: the decimal string of `12345678` has exactly 8
characters — the claim says such a string is returned verbatim — yet
`Hash.String` truncates it (the Go source keeps it only when
`len(s) < 8`). -/
theorem c8_counterexample :
    (natDecString (Hash.BigInt (NewHashFromBigInt (12345678 : Int)))).length ≤ 8 ∧
    Hash.String (NewHashFromBigInt (12345678 : Int)) ≠
      natDecString (Hash.BigInt (NewHashFromBigInt (12345678 : Int))) := by
  decide

/-- Claim C8 (amended): `Hash.String` returns the decimal string of the
integer value unchanged when that string has strictly fewer than 8
characters, and otherwise returns its first 8 characters followed by the
ellipsis marker. -/
theorem c8_displayString (h : Hash) :
    ((natDecString (Hash.BigInt h)).length < numCharPrint →
      Hash.String h = natDecString (Hash.BigInt h)) ∧
    (numCharPrint ≤ (natDecString (Hash.BigInt h)).length →
      Hash.String h =
        String.mk ((natDecString (Hash.BigInt h)).data.take numCharPrint) ++ ("...")) := by
  constructor
  · intro hlt
    simp only [Hash.String]
    rw [if_pos hlt]
  · intro hge
    simp only [Hash.String]
    rw [if_neg (by omega)]

theorem c8_witness :
    Hash.String HashZero = natDecString (Hash.BigInt HashZero) ∧
    Hash.String (NewHashFromBigInt (12345678 : Int)) =
      String.mk ((natDecString (Hash.BigInt (NewHashFromBigInt (12345678 : Int)))).data.take
        numCharPrint) ++ ("...") :=
  ⟨(c8_displayString HashZero).1 (by decide),
   (c8_displayString (NewHashFromBigInt (12345678 : Int))).2 (by decide)⟩

/-- Claim C9 counterexample: `NewHashFromBytes` does not store its input
unchanged — it stores the byte-reversed buffer. -/
theorem c9_counterexample :
    NewHashFromBytes (1 :: List.replicate 31 0) ≠
      some (1 :: List.replicate 31 0) := by
  decide

/-- Claim C9 (amended): for every 32-byte buffer `b`, `NewHashFromBytes b`
succeeds — with no field-membership check — and stores `ReverseByteOrder b`
(it interprets `b` as integer-order bytes and reverses it into storage
order, rather than storing `b` unchanged). -/
theorem c9_fromBytes_reverses (b : List Nat) (hlen : b.length = 32) :
    NewHashFromBytes b = some (ReverseByteOrder b) := by
  unfold NewHashFromBytes
  rw [if_neg (by simp [ElemBytesLen, hlen])]
  rw [copyPad_self 32 (ReverseByteOrder b) (by simp [ReverseByteOrder, hlen])]

theorem c9_witness :
    NewHashFromBytes (List.replicate 32 255) =
      some (ReverseByteOrder (List.replicate 32 255)) :=
  c9_fromBytes_reverses (List.replicate 32 255) (by decide)

theorem parseDigitsAux_all_digits :
    ∀ (cs : List Char), (∀ c ∈ cs, charDigit c ≠ none) →
      ∀ acc, ∃ m, parseDigitsAux acc cs = some m := by
  intro cs
  induction cs with
  | nil => exact fun _ acc => ⟨acc, rfl⟩
  | cons c cs ih =>
    intro hall acc
    cases hc : charDigit c with
    | none => exact absurd hc (hall c (by simp))
    | some d =>
      obtain ⟨m, hm⟩ := ih (fun x hx => hall x (by simp [hx])) (acc * 10 + d)
      exact ⟨m, by simp [parseDigitsAux, hc, hm]⟩

/-- Claim C10: for a non-empty digit string `d`, `NewHashFromString` on the
negative literal `"-" ++ d` does not fail: it succeeds and returns the same
hash as `NewHashFromString d`, because `NewHashFromBigInt` uses only the
integer's magnitude bytes. -/
theorem c10_negative_decimal (d : String) (hne : d.data ≠ [])
    (hdig : ∀ c ∈ d.data, charDigit c ≠ none) :
    NewHashFromString (("-") ++ d) = NewHashFromString d ∧
    NewHashFromString d ≠ none := by
  obtain ⟨c, cs, hcons⟩ := List.exists_cons_of_ne_nil hne
  have hcd : charDigit c ≠ none := hdig c (by rw [hcons]; simp)
  have hplus : c ≠ '+' := fun he => hcd (by rw [he]; rfl)
  have hminus : c ≠ '-' := fun he => hcd (by rw [he]; rfl)
  obtain ⟨m, hm⟩ := parseDigitsAux_all_digits d.data hdig 0
  have hpd : parseDigits d.data = some m := by
    unfold parseDigits
    rw [if_neg hne]
    exact hm
  have hdata : (("-") ++ d).data = '-' :: d.data := by
    simp [String.data_append]
  have hminusparse : setStringBase10 (("-") ++ d) =
      (parseDigits d.data).map (fun n => -(n : Int)) := by
    conv_lhs => rw [show ("-") ++ d = String.mk ('-' :: d.data) from String.ext hdata]
    rw [setStringBase10_cons, if_neg (by decide), if_pos rfl]
  have hposparse : setStringBase10 d =
      (parseDigits d.data).map (fun n => (n : Int)) := by
    conv_lhs => rw [show d = String.mk (c :: cs) from String.ext hcons]
    rw [setStringBase10_cons, if_neg hplus, if_neg hminus, ← hcons]
  have hneg : NewHashFromBigInt (-(m : Int)) = NewHashFromBigInt (m : Int) := by
    unfold NewHashFromBigInt bigIntBytes
    rw [Int.natAbs_neg]
  constructor
  · unfold NewHashFromString
    rw [hminusparse, hposparse, hpd]
    show some (NewHashFromBigInt (-(m : Int))) = some (NewHashFromBigInt (m : Int))
    rw [hneg]
  · unfold NewHashFromString
    rw [hposparse, hpd]
    simp

theorem c10_witness :
    NewHashFromString (("-") ++ ("7")) = NewHashFromString ("7") ∧
    NewHashFromString ("7") ≠ none :=
  c10_negative_decimal ("7") (by decide) (by decide)
